import Mathlib

/-!
# Verification of the `close_fds` descriptor-closing library

This file gives a shallow embedding, in Lean 4, of the core algorithms of the
`close_fds` crate (keep-list preprocessing, gap computation for bulk range
operations, the descriptor iterator, the close loop, the capability flags and
the `/proc/self/fd` name decoder), and proves or refutes the specification
claims about them.

C values of type `c_int` are modelled as unbounded `Int` together with the
explicit bounds `INT_MIN`/`INT_MAX`; overflow questions are stated as bounds on
the intermediate values actually computed by the code.  The process's set of
open file descriptors is modelled as a `Finset Int`, with `close(fd)` acting as
`Finset.erase` (closing an invalid descriptor silently does nothing, matching
the code ignoring `close()` errors).
-/

namespace CloseFds

/-- `libc::c_int::MAX` (32-bit). -/
def INT_MAX : Int := 2147483647

/-- `libc::c_int::MIN` (32-bit). -/
def INT_MIN : Int := -2147483648

/-- `x` fits in a `libc::c_int`. -/
def in_c_int (x : Int) : Prop := INT_MIN ≤ x ∧ x ≤ INT_MAX

instance (x : Int) : Decidable (in_c_int x) := by unfold in_c_int; infer_instance

/-! ## `src/util.rs`: keep-list preprocessing -/

/-- Loop body of `util.rs::inspect_keep_fds`: a single pass tracking the running
maximum `max_keep_fd`, the previous element `last_fd`, and the sortedness flag.
`if fd > max_keep_fd { max_keep_fd = fd } else if last_fd > fd { fds_sorted = false };
last_fd = fd`. -/
def inspect_go : List Int → Int → Int → Bool → Int × Bool
  | [], max_keep_fd, _, fds_sorted => (max_keep_fd, fds_sorted)
  | fd :: rest, max_keep_fd, last_fd, fds_sorted =>
    if max_keep_fd < fd then inspect_go rest fd fd fds_sorted
    else if fd < last_fd then inspect_go rest max_keep_fd fd false
    else inspect_go rest max_keep_fd fd fds_sorted

/-- `util.rs::inspect_keep_fds`: returns the maximum element (starting from
`c_int::MIN`) and whether the list is sorted ascending. -/
def inspect_keep_fds (keep_fds : List Int) : Int × Bool :=
  inspect_go keep_fds INT_MIN INT_MIN true

/-- Loop of `util.rs::simplify_keep_fds` (the `fds_sorted` case): repeatedly
compare the head of the list with `minfd`; `Greater` stops, `Equal` drops the
head and increments `minfd`, `Less` drops the head. -/
def simplify_go : List Int → Int → List Int × Int
  | [], minfd => ([], minfd)
  | first :: rest, minfd =>
    if minfd < first then (first :: rest, minfd)
    else if first = minfd then simplify_go rest (minfd + 1)
    else simplify_go rest minfd

/-- `util.rs::simplify_keep_fds`: returns the shrunk keep-list together with the
(possibly incremented) threshold; the identity when `fds_sorted` is false. -/
def simplify_keep_fds (keep_fds : List Int) (fds_sorted : Bool) (minfd : Int) :
    List Int × Int :=
  if fds_sorted then simplify_go keep_fds minfd else (keep_fds, minfd)

/-- `util.rs::check_should_keep`: returns the keep/drop decision together with
the updated cursor (the function takes `&mut &[c_int]`).  In the sorted case the
code looks for the first element `≥ fd` (`position(|&x| x >= fd)`); if found it
shrinks the cursor to start there, otherwise it leaves the cursor unchanged;
the decision is whether the (new) head equals `fd`.  In the unsorted case it is
`contains` and the cursor is untouched. -/
def check_should_keep (keep_fds : List Int) (fd : Int) (fds_sorted : Bool) :
    Bool × List Int :=
  if fds_sorted then
    match keep_fds.dropWhile (fun x => decide (x < fd)) with
    | [] => (decide (keep_fds.head? = some fd), keep_fds)
    | r :: rs => (decide (r = fd), r :: rs)
  else (decide (fd ∈ keep_fds), keep_fds)

/-- A sequence of `check_should_keep` queries against one cursor (as a caller
holding a `&mut &[c_int]` makes during one enumeration): returns the list of
keep/drop decisions. -/
def run_should_keep (fds_sorted : Bool) : List Int → List Int → List Bool
  | _, [] => []
  | keep_fds, q :: qs =>
    (check_should_keep keep_fds q fds_sorted).1 ::
      run_should_keep fds_sorted (check_should_keep keep_fds q fds_sorted).2 qs

/-! Sanity checks mirroring the unit tests in `util.rs`. -/




/-! ## `src/util.rs::apply_range`: gap computation for bulk range operations

`apply_range(minfd, keep_fds, func)` first skips the elements of `keep_fds`
below `minfd`; if nothing remains it issues the single call
`func(minfd, c_int::MAX)`.  Otherwise it issues `func(minfd, keep_fds[0] - 1)`
when `keep_fds[0] > minfd`, then `func(low + 1, high - 1)` for every adjacent
pair `(low, high)` with `high - low >= 2`, and finally
`func(keep_fds[last] + 1, c_int::MAX)`.  The `?` operator aborts the whole
call sequence at the first failing invocation.

We split this into: the (call-independent) candidate range list
`apply_range_ranges`, the list `apply_range_arith` of intermediate values
produced by the code's `c_int` additions/subtractions, and `apply_range`
itself, which performs the calls in order, stopping at the first failure. -/

/-- The ranges produced by the `for i in 0..(keep_fds.len() - 1)` loop of
`apply_range`: one range `(low + 1, high - 1)` per adjacent pair `(low, high)`
with `high - low >= 2`. -/
def gap_ranges : List Int → List (Int × Int)
  | low :: high :: rest =>
    (if 2 ≤ high - low then [(low + 1, high - 1)] else []) ++ gap_ranges (high :: rest)
  | _ => []

/-- The full ordered list of ranges `apply_range` passes to `func`, assuming no
call fails. -/
def apply_range_ranges (minfd : Int) (keep_fds : List Int) : List (Int × Int) :=
  match keep_fds.dropWhile (fun fd => decide (fd < minfd)) with
  | [] => [(minfd, INT_MAX)]
  | k :: ks =>
    (if minfd < k then [(minfd, k - 1)] else [])
      ++ gap_ranges (k :: ks)
      ++ [((k :: ks).getLast (by simp) + 1, INT_MAX)]

/-- The intermediate `c_int` values computed by the additions and subtractions
in the gap loop of `apply_range`: `high - low` for every adjacent pair, plus
`low + 1` and `high - 1` whenever `high - low >= 2`. -/
def gap_arith : List Int → List Int
  | low :: high :: rest =>
    [high - low] ++ (if 2 ≤ high - low then [low + 1, high - 1] else [])
      ++ gap_arith (high :: rest)
  | _ => []

/-- Every intermediate `c_int` value produced by an addition or subtraction in
`apply_range`: `keep_fds[0] - 1` (when that branch is taken), the gap-loop
values, and `keep_fds[last] + 1`. -/
def apply_range_arith (minfd : Int) (keep_fds : List Int) : List Int :=
  match keep_fds.dropWhile (fun fd => decide (fd < minfd)) with
  | [] => []
  | k :: ks =>
    (if minfd < k then [k - 1] else [])
      ++ gap_arith (k :: ks)
      ++ [(k :: ks).getLast (by simp) + 1]

/-- Run the bulk-range callback on the candidate ranges in order, stopping (as
the `?` operator does) at the first failing call.  Returns the calls actually
made and whether the whole sequence succeeded. -/
def runRanges (ok : Int → Int → Bool) : List (Int × Int) → List (Int × Int) × Bool
  | [] => ([], true)
  | (a, b) :: rest =>
    if ok a b then
      let r := runRanges ok rest
      ((a, b) :: r.1, r.2)
    else ([(a, b)], false)

/-- `util.rs::apply_range`, with the callback modelled by its success/failure
behaviour `ok`: returns the ranges on which the callback was invoked and the
overall result. -/
def apply_range (minfd : Int) (keep_fds : List Int) (ok : Int → Int → Bool) :
    List (Int × Int) × Bool :=
  runRanges ok (apply_range_ranges minfd keep_fds)

/-! Sanity checks mirroring `test_apply_range` in `util.rs`. -/


/-- Modelled from the spec: "for a sorted keep-list `k[0..n)` and threshold
`t`, the closed ranges to operate on are `[t, k[0]-1]` (if `k[0] > t`),
`[k[i]+1, k[i+1]-1]` for each adjacent pair with a gap, and `[k[n-1]+1, MAX]`";
and (from the claim) "if every element of the list is below `t` (or the list is
empty), the single range `[t, MAX]` is used".  The adjacent-pair ranges are
written with `zip` so that this definition follows the spec's indexing rather
than the code's recursion. -/
def spec_gap_ranges (t : Int) (k : List Int) : List (Int × Int) :=
  if k.isEmpty || k.all (fun x => decide (x < t)) then [(t, INT_MAX)]
  else
    (if t < k.headD 0 then [(t, k.headD 0 - 1)] else [])
      ++ (k.zip k.tail).foldr
          (fun p acc => if p.1 + 1 ≤ p.2 - 1 then (p.1 + 1, p.2 - 1) :: acc else acc) []
      ++ [(k.getLastD 0 + 1, INT_MAX)]

/-! ## `src/closefds/close.rs::close_fds`: the per-descriptor close loop

The process's open-descriptor table is a `Finset Int`; `close(fd)` removes
`fd` (and silently does nothing when `fd` is not open, matching the code
ignoring `close()` errors).  The enumeration driving the loop is represented
by the list `fds` of descriptor numbers the `FdIter` yields, in order; the
correctness theorems take as hypotheses exactly the guarantees the iterator
provides (strictly ascending, at or above the threshold, and — since the
builder sets `possible(true)` — a superset of the open descriptors at or above
the threshold).

This models the portable code path of `close_fds` (no `closefrom()`/
`close_range()` shortcut, e.g. macOS): simplify the keep-list, then for each
yielded `fd`: if `fd > max_keep_fd`, close it and every remaining yielded
descriptor; otherwise close it unless `check_should_keep` says to keep it. -/

/-- One `libc::close(fd)` call. -/
def close_fd (s : Finset Int) (fd : Int) : Finset Int := s.erase fd

/-- The `while let Some(fd) = fditer.next()` loop of `close_fds` (portable
path), threading the `check_should_keep` cursor. -/
def close_fds_loop (max_keep_fd : Int) (fds_sorted : Bool) :
    List Int → List Int → Finset Int → Finset Int
  | [], _, s => s
  | fd :: rest, keep_fds, s =>
    if max_keep_fd < fd then
      (fd :: rest).foldl close_fd s
    else
      match check_should_keep keep_fds fd fds_sorted with
      | (true, keep_fds') => close_fds_loop max_keep_fd fds_sorted rest keep_fds' s
      | (false, keep_fds') => close_fds_loop max_keep_fd fds_sorted rest keep_fds' (close_fd s fd)

/-- `close_open_fds(minfd, keep_fds)` =
`CloseFdsBuilder::new().keep_fds(keep_fds).closefrom(minfd)`: clamp `minfd` to
`≥ 0` (`core::cmp::max(minfd, 0)`), pre-scan the keep-list
(`inspect_keep_fds`), simplify it (`simplify_keep_fds`), and run the close
loop over the descriptors `fds` yielded by the iterator. -/
def close_open_fds (minfd : Int) (keep_fds : List Int) (fds : List Int)
    (opens : Finset Int) : Finset Int :=
  let minfd0 := max minfd 0
  let mx := inspect_keep_fds keep_fds
  let sk := simplify_keep_fds keep_fds mx.2 minfd0
  close_fds_loop mx.1 mx.2 fds sk.1 opens

/-! ## The descriptor iterator

The scan strategy (the `while self.curfd <= maxfd` loop of `FdIter::next`,
identical in `src/lib.rs` and `src/iterfds/fditer.rs`) probes each integer
from `curfd` to `maxfd`, yielding it if the iterator is in "possible" mode or
`is_fd_valid(fd)` holds, and advancing `curfd` past it.  The loop body runs
`(maxfd + 1 - curfd)` times, which we use as structural fuel. -/

/-- The scan loop with explicit iteration count; returns the yielded
descriptor (if any) and the final value of `curfd`. -/
def scan_go (possible : Bool) (valid : Int → Bool) : Nat → Int → Option Int × Int
  | 0, curfd => (none, curfd)
  | n + 1, curfd =>
    if possible || valid curfd then (some curfd, curfd + 1)
    else scan_go possible valid n (curfd + 1)

/-- The `while self.curfd <= maxfd` loop of `FdIter::next`. -/
def scan_next (possible : Bool) (valid : Int → Bool) (maxfd curfd : Int) :
    Option Int × Int :=
  scan_go possible valid (maxfd + 1 - curfd).toNat curfd

/-- The state of the directory-listing sub-iterator (`DirFdIter`), abstracted
over the kernel's directory stream: `pending` is the list of descriptor
numbers the remaining `getdents` records decode to (in the order the kernel
returns them), and `errAfter` tells whether, once they are consumed, the next
`getdents` call fails (`Err`) or reports end-of-directory (`Ok(None)`). -/
structure DirIterSt where
  pending : List Int
  errAfter : Bool

/-- `DirFdIter::next` for the `src/lib.rs` version: yield the next pending
entry, and at the end either fail or report exhaustion. -/
def dir_next (d : DirIterSt) : Except Unit (Option Int × DirIterSt) :=
  match d.pending with
  | fd :: rest => Except.ok (some fd, ⟨rest, d.errAfter⟩)
  | [] => if d.errAfter then Except.error () else Except.ok (none, d)

/-- The mutable state of `src/lib.rs::FdIter`. -/
structure FdIterSt where
  dirfd_iter : Option DirIterSt
  curfd : Int
  possible : Bool
  maxfd : Int

/-- The OS environment a single `FdIter::next` call observes: which
descriptors `is_fd_valid` reports as open, the FreeBSD
`sysctl(KERN_PROC_NFDS)` result (`none` when the call fails or the platform
lacks it), and `sysconf(_SC_OPEN_MAX)`. -/
structure Env where
  valid : Int → Bool
  nfds : Option Int
  fdlimit : Int

/-- `src/lib.rs::FdIter::nfds_to_maxfd` — the scan `for fd in 0..(nfds * 3)`
counting valid descriptors until `nfds` of them are found. -/
def nfds_scan_lib (valid : Int → Bool) (nfds : Int) : Nat → Int → Int → Option Int
  | 0, _, _ => none
  | n + 1, fd, nfds_found =>
    if valid fd then
      if nfds ≤ nfds_found + 1 then some fd
      else nfds_scan_lib valid nfds n (fd + 1) (nfds_found + 1)
    else nfds_scan_lib valid nfds n (fd + 1) nfds_found

/-- `src/lib.rs::FdIter::nfds_to_maxfd` (the old version): `nfds == 0` returns
`Some(-1)`; `nfds >= 100` returns `None`; otherwise scan `0..(nfds * 3)`. -/
def nfds_to_maxfd_lib (valid : Int → Bool) (nfds : Int) : Option Int :=
  if nfds = 0 then some (-1)
  else if 100 ≤ nfds then none
  else nfds_scan_lib valid nfds (nfds * 3).toNat 0 0

/-- `src/lib.rs::FdIter::get_maxfd_direct` on the FreeBSD path: try the
`nfds` method (guarded by `sysctl` success and `nfds >= 0`), then fall back to
the `sysconf` limit: `fdlimit - 1` if `1024 <= fdlimit <= 65536`, else
`65536`. -/
def get_maxfd_direct_lib (e : Env) : Int :=
  match (match e.nfds with
         | some nfds => if 0 ≤ nfds then nfds_to_maxfd_lib e.valid nfds else none
         | none => none) with
  | some maxfd => maxfd
  | none => if e.fdlimit ≤ 65536 ∧ 1024 ≤ e.fdlimit then e.fdlimit - 1 else 65536

/-- `FdIter::get_maxfd`: memoize `get_maxfd_direct()` — but the result is
only treated as computed while it is non-negative, since `maxfd < 0` means
"unknown".  `direct` is the platform's `get_maxfd_direct`. -/
def get_maxfd (direct : Env → Int) (e : Env) (st : FdIterSt) : Int × FdIterSt :=
  if st.maxfd < 0 then
    let m := direct e
    (m, { st with maxfd := m })
  else (st.maxfd, st)

/-- The maxfd-scan part of `FdIter::next` (everything after the `dirfd_iter`
block, identical in `src/lib.rs` and `src/iterfds/fditer.rs`). -/
def fdIterScan (direct : Env → Int) (e : Env) (st : FdIterSt) :
    Option Int × FdIterSt :=
  let mst := get_maxfd direct e st
  let r := scan_next mst.2.possible e.valid mst.1 mst.2.curfd
  (r.1, { mst.2 with curfd := r.2 })

/-- `src/lib.rs::FdIter::next`: try the directory sub-iterator first; on
`Ok(Some(fd))` set `self.curfd = fd` (sic) and yield `fd`; on `Ok(None)`
report exhaustion; on `Err` drop the sub-iterator and fall back to the maxfd
scan. -/
def fdIterNext_lib (e : Env) (st : FdIterSt) : Option Int × FdIterSt :=
  match st.dirfd_iter with
  | some d =>
    match dir_next d with
    | Except.ok (some fd, d') =>
      (some fd, { st with dirfd_iter := some d', curfd := fd })
    | Except.ok (none, d') => (none, { st with dirfd_iter := some d' })
    | Except.error _ => fdIterScan get_maxfd_direct_lib e { st with dirfd_iter := none }
  | none => fdIterScan get_maxfd_direct_lib e st

/-- `src/iterfds/fditer.rs::FdIter::nfds_to_maxfd` (the current version):
`nfds == 0` returns `Some(0)`, `nfds < 0` returns `None`, `nfds >= 100`
returns `None`; otherwise scan `0..(nfds * 2)`. -/
def nfds_to_maxfd_iterfds (valid : Int → Bool) (nfds : Int) : Option Int :=
  if nfds = 0 then some 0
  else if nfds < 0 then none
  else if 100 ≤ nfds then none
  else nfds_scan_lib valid nfds (nfds * 2).toNat 0 0

/-- `src/iterfds/fditer.rs::FdIter::get_maxfd_direct` on the FreeBSD path
(current version): the `nfds` method, then the clamped `sysconf` fallback
`fdlimit.max(1024).min(65536) - 1`. -/
def get_maxfd_direct_iterfds (e : Env) : Int :=
  match (match e.nfds with
         | some nfds => nfds_to_maxfd_iterfds e.valid nfds
         | none => none) with
  | some maxfd => maxfd
  | none => min (max e.fdlimit 1024) 65536 - 1

/-- `src/iterfds/fditer.rs::FdIter::next` (the current version): as
`fdIterNext_lib` except that a descriptor yielded by the directory
sub-iterator sets `self.curfd = fd + 1`, and `get_maxfd_direct` is the
current version. -/
def fdIterNext_iterfds (e : Env) (st : FdIterSt) : Option Int × FdIterSt :=
  match st.dirfd_iter with
  | some d =>
    match dir_next d with
    | Except.ok (some fd, d') =>
      (some fd, { st with dirfd_iter := some d', curfd := fd + 1 })
    | Except.ok (none, d') => (none, { st with dirfd_iter := some d' })
    | Except.error _ => fdIterScan get_maxfd_direct_iterfds e { st with dirfd_iter := none }
  | none => fdIterScan get_maxfd_direct_iterfds e st

/-- Iterate `next` a fixed number of times from a state, collecting the
yielded descriptors in order. -/
def iterRun (next : FdIterSt → Option Int × FdIterSt) : Nat → FdIterSt → List Int
  | 0, _ => []
  | n + 1, st =>
    match next st with
    | (some fd, st') => fd :: iterRun next n st'
    | (none, st') => iterRun next n st'

/-! ## `src/iterfds/dirfd.rs`: the directory-entry name decoder -/

/-- Rust's `c_int::checked_mul`. -/
def checked_mul (a b : Int) : Option Int :=
  if in_c_int (a * b) then some (a * b) else none

/-- Rust's `c_int::checked_add`. -/
def checked_add (a b : Int) : Option Int :=
  if in_c_int (a + b) then some (a + b) else none

/-- The loop of `dirfd.rs::parse_int_bytes`, carrying `num` and `seen_any`:
for each byte, if it is an ASCII digit, `num = num.checked_mul(10)?
.checked_add((ch - b'0') as c_int)?`; otherwise return `None`; at the end
return `Some(num)` iff at least one digit was seen. -/
def parse_go (num : Int) (seen_any : Bool) : List Nat → Option Int
  | [] => if seen_any then some num else none
  | ch :: rest =>
    if 48 ≤ ch ∧ ch ≤ 57 then
      match checked_mul num 10 with
      | none => none
      | some m =>
        match checked_add m ((ch : Int) - 48) with
        | none => none
        | some num' => parse_go num' true rest
    else none

/-- `src/iterfds/dirfd.rs::parse_int_bytes`. -/
def parse_int_bytes (l : List Nat) : Option Int := parse_go 0 false l

/-- The decimal value denoted by a digit string, starting from accumulator
`a` (used to specify `parse_int_bytes`). -/
def decValueFrom (a : Int) (l : List Nat) : Int :=
  l.foldl (fun n c => n * 10 + ((c : Int) - 48)) a

/-- The decimal value denoted by a digit string. -/
def decValue (l : List Nat) : Int := decValueFrom 0 l

/-- A kernel directory record as `get_entry_info` sees it (Linux layout):
the bytes of the `d_name` field and the record length `d_reclen`. -/
structure Dirent where
  d_name : List Nat
  d_reclen : Nat

/-- `src/iterfds/dirfd.rs::DirFdIter::get_entry_info` (Linux path): decode
`d_name` up to the first NUL with `parse_int_bytes` and pair the result with
`d_reclen`, the number of bytes this record consumes from the buffer. -/
def get_entry_info (entry : Dirent) : Option Int × Nat :=
  (parse_int_bytes (entry.d_name.takeWhile (fun c => decide (c ≠ 0))), entry.d_reclen)

/-! ## The process-wide capability flags

`src/closefds/close.rs` and `src/closefds/cloexec.rs` keep three static
flags: `MAY_HAVE_CLOSE_RANGE : AtomicBool = true` (Linux),
`MAY_HAVE_CLOSE_RANGE_CLOEXEC : AtomicBool = true` (Linux), and
`HAS_CLOSE_RANGE : AtomicU8 = 2` (FreeBSD; in the code `1` is stored when
`close_range` is present, `0` when absent, anything else means
uninitialized).  Each write site is modelled as a pure flag-update function,
and the possible evolutions of the flags as a step relation. -/

/-- The flag update performed by `close.rs::try_close_range` (Linux): on
syscall failure, `MAY_HAVE_CLOSE_RANGE.store(false)`; on success the flag is
not written. -/
def try_close_range_flag (may_have : Bool) (syscall_ok : Bool) : Bool :=
  if syscall_ok then may_have else false

/-- The flag update performed by `cloexec.rs::set_cloexec_range` (Linux): on
syscall failure, `MAY_HAVE_CLOSE_RANGE_CLOEXEC.store(false)`. -/
def set_cloexec_range_flag (may_have : Bool) (syscall_ok : Bool) : Bool :=
  if syscall_ok then may_have else false

/-- The flag update performed by `close.rs::check_has_close_range` (FreeBSD):
cached values `1` and `0` are returned without a write; otherwise the
`kern.osreldate` sysctl decides and `1` or `0` is stored. -/
def check_has_close_range_flag (has : Nat) (osreldate_ok : Bool) : Nat :=
  match has with
  | 1 => 1
  | 0 => 0
  | _ => if osreldate_ok then 1 else 0

/-- The three process-wide capability flags. -/
structure CapState where
  may_have_close_range : Bool
  may_have_close_range_cloexec : Bool
  has_close_range : Nat

/-- The initial flag values (`AtomicBool::new(true)`, `AtomicBool::new(true)`,
`AtomicU8::new(2)`). -/
def capInit : CapState := ⟨true, true, 2⟩

/-- One execution step touching a capability flag: some thread runs one of
the three write sites, with some syscall outcome. -/
inductive CapStep : CapState → CapState → Prop
  | close_range (s : CapState) (ok : Bool) :
      CapStep s { s with may_have_close_range := try_close_range_flag s.may_have_close_range ok }
  | cloexec_range (s : CapState) (ok : Bool) :
      CapStep s { s with may_have_close_range_cloexec :=
        set_cloexec_range_flag s.may_have_close_range_cloexec ok }
  | osreldate_check (s : CapState) (ok : Bool) :
      CapStep s { s with has_close_range := check_has_close_range_flag s.has_close_range ok }

/-! # Theorems

Sanity checks first: concrete evaluations mirroring the crate's own unit
tests (`util.rs::tests`), as evidence that the embedding matches the code. -/

example : inspect_keep_fds [] = (INT_MIN, true) := by decide

example : inspect_keep_fds [0, 1] = (1, true) := by decide

example : inspect_keep_fds [1, 0] = (1, false) := by decide

example : inspect_keep_fds [0, 1, 2, 5, 7] = (7, true) := by decide

example : inspect_keep_fds [0, 1, 2, 7, 5] = (7, false) := by decide

example : inspect_keep_fds [-1] = (-1, true) := by decide

example : simplify_keep_fds [0, 1, 2] true 3 = ([], 3) := by decide

example : simplify_keep_fds [2, 3, 4, 5, 6, 7] true 3 = ([], 8) := by decide

example : simplify_keep_fds [3, 4, 5, 8, 10] true 3 = ([8, 10], 6) := by decide

example : simplify_keep_fds [3, 5, 8, 10] true 3 = ([5, 8, 10], 4) := by decide

example : simplify_keep_fds [4, 5, 8, 10] true 3 = ([4, 5, 8, 10], 3) := by decide

example : simplify_keep_fds [2, 1, 0] false 3 = ([2, 1, 0], 3) := by decide

example : check_should_keep [0, 1, 5, 8, 10] 0 true = (true, [0, 1, 5, 8, 10]) := by decide

example : check_should_keep [0, 1, 5, 8, 10] 1 true = (true, [1, 5, 8, 10]) := by decide

example : check_should_keep [1, 5, 8, 10] 2 true = (false, [5, 8, 10]) := by decide

example : check_should_keep [5, 8, 10] 3 true = (false, [5, 8, 10]) := by decide

example : check_should_keep [5, 8, 10] 5 true = (true, [5, 8, 10]) := by decide

example : check_should_keep [5, 8, 10] 6 true = (false, [8, 10]) := by decide

example : check_should_keep [0, 1, 5, 8, 10] 3 false = (false, [0, 1, 5, 8, 10]) := by decide

example : (apply_range 0 [] (fun _ _ => true)).1 = [(0, INT_MAX)] := by decide

example : (apply_range (-100) [] (fun _ _ => true)).1 = [(-100, INT_MAX)] := by decide

example : (apply_range 3 [0, 2, 3, 4, 5, 6] (fun _ _ => true)).1 = [(7, INT_MAX)] := by decide

example : (apply_range 3 [0, 2] (fun _ _ => true)).1 = [(3, INT_MAX)] := by decide

example : (apply_range 3 [3, 4, 5, 6] (fun _ _ => true)).1 = [(7, INT_MAX)] := by decide

example : (apply_range 3 [4, 5, 6] (fun _ _ => true)).1 = [(3, 3), (7, INT_MAX)] := by decide

example : (apply_range 3 [5, 6, 9, 10] (fun _ _ => true)).1 =
    [(3, 4), (7, 8), (11, INT_MAX)] := by decide

example : (apply_range 3 [5, 6, 9, 10, 20, 23] (fun _ _ => true)).1 =
    [(3, 4), (7, 8), (11, 19), (21, 22), (24, INT_MAX)] := by decide

example : apply_range 3 [5, 6, 9, 10] (fun _ _ => false) = ([(3, 4)], false) := by decide

example : apply_range 3 [4, 5, 6] (fun _ _ => false) = ([(3, 3)], false) := by decide

/-! ## Generic list helpers -/

/-- The head of a non-empty `dropWhile` result fails the predicate. -/
theorem dropWhile_head_false {p : Int → Bool} :
    ∀ {l : List Int} {a : Int} {as : List Int}, l.dropWhile p = a :: as → p a = false := by
  intro l
  induction l with
  | nil => intro a as h; simp [List.dropWhile] at h
  | cons x xs ih =>
    intro a as h
    by_cases hx : p x
    · rw [List.dropWhile_cons_of_pos hx] at h
      exact ih h
    · rw [List.dropWhile_cons_of_neg hx] at h
      cases h
      simpa using hx

/-- Membership transfers from `dropWhile` to the original list. -/
theorem mem_of_mem_dropWhile {p : Int → Bool} {l : List Int} {x : Int}
    (h : x ∈ l.dropWhile p) : x ∈ l :=
  (List.dropWhile_sublist p).mem h

/-! ## Claim C2: the ranges issued by `apply_range` -/

/-- When every call succeeds, `runRanges` performs exactly the candidate
calls. -/
theorem runRanges_true (l : List (Int × Int)) :
    runRanges (fun _ _ => true) l = (l, true) := by
  induction l with
  | nil => rfl
  | cons p rest ih => cases p; simp [runRanges, ih]

/-- The code's gap-loop recursion agrees with the spec's zip-of-adjacent-pairs
formula. -/
theorem gap_ranges_eq_zip (l : List Int) :
    gap_ranges l =
      (l.zip l.tail).foldr
        (fun p acc => if p.1 + 1 ≤ p.2 - 1 then (p.1 + 1, p.2 - 1) :: acc else acc) [] := by
  induction l with
  | nil => rfl
  | cons low tl ih =>
    cases tl with
    | nil => rfl
    | cons high rest =>
      simp only [gap_ranges, List.zip_cons_cons, List.tail_cons, List.foldr_cons, ih]
      by_cases h : 2 ≤ high - low
      · rw [if_pos h, if_pos (by omega)]
        simp
      · rw [if_neg h, if_neg (by omega)]
        simp

/-- `getLastD` agrees with `getLast` on a cons cell. -/
theorem getLastD_cons_eq_getLast (k0 : Int) (ks : List Int) :
    (k0 :: ks).getLastD 0 = (k0 :: ks).getLast (by simp) := by
  rw [List.getLastD_eq_getLast?, List.getLast?_eq_getLast (k0 :: ks) (by simp)]
  rfl

/-- Claim C2, counterexample: for the sorted keep-list `[0, 5]` (whose
elements straddle the threshold `3`), the code first discards the elements
below the threshold and issues `(3,4), (6,MAX)`, whereas the claim's formula,
read off the original list, has no head range (`k[0] = 0 ≤ 3`) and contains
the adjacent-pair range `(1, 4)`, which even reaches below the threshold. -/
theorem apply_range_claim_counterexample :
    [(0 : Int), 5].Pairwise (· ≤ ·) ∧
    (apply_range 3 [0, 5] (fun _ _ => true)).1 = [(3, 4), (6, INT_MAX)] ∧
    spec_gap_ranges 3 [0, 5] = [(1, 4), (6, INT_MAX)] ∧
    (apply_range 3 [0, 5] (fun _ _ => true)).1 ≠ spec_gap_ranges 3 [0, 5] := by
  refine ⟨?_, by decide, by decide, by decide⟩
  decide

/-- Claim C2 (amended): for every threshold `t` and keep-list `k`, the ranges
on which `apply_range` invokes the bulk operation are exactly the spec's gap
formula applied to the suffix of `k` that remains after discarding the
elements below `t`: `[t, k'[0]-1]` (only if `k'[0] > t`),
`[k'[i]+1, k'[i+1]-1]` for each adjacent pair with a gap of at least one, and
`[k'[n-1]+1, MAX]`; and the single range `[t, MAX]` when every element is
below `t` or the list is empty. -/
theorem apply_range_invokes_spec_ranges (t : Int) (k : List Int) :
    (apply_range t k (fun _ _ => true)).1 =
      spec_gap_ranges t (k.dropWhile (fun x => decide (x < t))) := by
  show (runRanges _ (apply_range_ranges t k)).1 = _
  rw [runRanges_true]
  unfold apply_range_ranges spec_gap_ranges
  cases hk : k.dropWhile (fun x => decide (x < t)) with
  | nil => simp
  | cons k0 ks =>
    have hk0 : ¬ (k0 < t) := by simpa using dropWhile_head_false hk
    have hall : (k0 :: ks).all (fun x => decide (x < t)) = false := by
      simp only [List.all_cons, Bool.and_eq_false_iff]
      left
      simpa using hk0
    simp only [List.isEmpty_cons, hall, Bool.false_or, Bool.false_eq_true, if_false,
      List.headD_cons, gap_ranges_eq_zip, getLastD_cons_eq_getLast]

/-! ## Claim C10: overflow safety of `apply_range` -/

/-- Every gap range is non-empty (`low ≤ high`), because gaps are only emitted
when `high - low ≥ 2`. -/
theorem gap_ranges_le (l : List Int) : ∀ p ∈ gap_ranges l, p.1 ≤ p.2 := by
  induction l with
  | nil => intro p hp; simp [gap_ranges] at hp
  | cons low tl ih =>
    cases tl with
    | nil => intro p hp; simp [gap_ranges] at hp
    | cons high rest =>
      intro p hp
      simp only [gap_ranges, List.mem_append] at hp
      rcases hp with hp | hp
      · by_cases h2 : 2 ≤ high - low
        · rw [if_pos h2] at hp
          simp only [List.mem_singleton] at hp
          subst hp
          simp only
          omega
        · rw [if_neg h2] at hp
          simp at hp
      · exact ih p hp

/-- For an ascending list of values in `[0, INT_MAX]`, every intermediate
value of the gap loop fits in a `c_int`. -/
theorem gap_arith_bounds (l : List Int) (hs : l.Pairwise (· ≤ ·))
    (hb : ∀ x ∈ l, 0 ≤ x ∧ x ≤ INT_MAX) : ∀ v ∈ gap_arith l, in_c_int v := by
  induction l with
  | nil => intro v hv; simp [gap_arith] at hv
  | cons low tl ih =>
    cases tl with
    | nil => intro v hv; simp [gap_arith] at hv
    | cons high rest =>
      intro v hv
      have hlh : low ≤ high := (List.pairwise_cons.mp hs).1 high (by simp)
      have hlo := hb low (by simp)
      have hhi := hb high (by simp)
      simp only [gap_arith, List.mem_append, List.mem_singleton] at hv
      rcases hv with (hv | hv) | hv
      · subst hv
        simp only [in_c_int, INT_MIN, INT_MAX] at *
        omega
      · by_cases h2 : 2 ≤ high - low
        · rw [if_pos h2] at hv
          simp only [List.mem_cons, List.not_mem_nil, or_false] at hv
          rcases hv with hv | hv <;> subst hv <;>
            simp only [in_c_int, INT_MIN, INT_MAX] at * <;> omega
        · rw [if_neg h2] at hv
          simp at hv
      · exact ih (List.pairwise_cons.mp hs).2 (fun x hx => hb x (by simp [hx])) v hv

/-- For a sorted keep-list with elements in `[0, INT_MAX)` and a threshold
that fits in a `c_int`, no addition or subtraction in `apply_range` leaves the
`c_int` range, and every candidate range is non-empty. -/
theorem apply_range_arith_bounds (minfd : Int) (K : List Int)
    (hs : K.Pairwise (· ≤ ·)) (hk : ∀ x ∈ K, 0 ≤ x ∧ x < INT_MAX)
    (hm : minfd ≤ INT_MAX) :
    (∀ v ∈ apply_range_arith minfd K, in_c_int v) ∧
    (∀ p ∈ apply_range_ranges minfd K, p.1 ≤ p.2) := by
  unfold apply_range_arith apply_range_ranges
  cases hd : K.dropWhile (fun fd => decide (fd < minfd)) with
  | nil =>
    refine ⟨by simp, ?_⟩
    intro p hp
    simp only [List.mem_singleton] at hp
    subst hp
    exact hm
  | cons k ks =>
    have hsub : (k :: ks).Pairwise (· ≤ ·) := hd ▸ hs.sublist (List.dropWhile_sublist _)
    have hbnd : ∀ x ∈ k :: ks, 0 ≤ x ∧ x < INT_MAX := by
      intro x hx
      exact hk x (mem_of_mem_dropWhile (hd ▸ hx))
    have hlast := hbnd ((k :: ks).getLast (by simp)) (List.getLast_mem (by simp))
    constructor
    · intro v hv
      simp only [List.mem_append, List.mem_singleton] at hv
      rcases hv with (hv | hv) | hv
      · by_cases hmk : minfd < k
        · rw [if_pos hmk] at hv
          simp only [List.mem_singleton] at hv
          subst hv
          have := hbnd k (by simp)
          simp only [in_c_int, INT_MIN, INT_MAX] at *
          omega
        · rw [if_neg hmk] at hv; simp at hv
      · exact gap_arith_bounds (k :: ks) hsub
          (fun x hx => ⟨(hbnd x hx).1, le_of_lt (hbnd x hx).2⟩) v hv
      · subst hv
        simp only [in_c_int, INT_MIN, INT_MAX] at *
        omega
    · intro p hp
      simp only [List.mem_append, List.mem_singleton] at hp
      rcases hp with (hp | hp) | hp
      · by_cases hmk : minfd < k
        · rw [if_pos hmk] at hp
          simp only [List.mem_singleton] at hp
          subst hp
          simp only
          omega
        · rw [if_neg hmk] at hp; simp at hp
      · exact gap_ranges_le (k :: ks) p hp
      · subst hp
        simp only
        omega

/-- If the last surviving keep-list element is `INT_MAX`, the final
`keep_fds[keep_fds.len() - 1] + 1` leaves the `c_int` range. -/
theorem apply_range_last_overflow (minfd : Int) (K : List Int) (last : Int)
    (h : (K.dropWhile (fun fd => decide (fd < minfd))).getLast? = some last)
    (hl : last = INT_MAX) :
    ¬ (∀ v ∈ apply_range_arith minfd K, in_c_int v) := by
  intro hall
  cases hd : K.dropWhile (fun fd => decide (fd < minfd)) with
  | nil => rw [hd] at h; simp at h
  | cons k ks =>
    rw [hd, List.getLast?_eq_getLast (k :: ks) (by simp)] at h
    have hlast : (k :: ks).getLast (by simp) = INT_MAX := by
      rw [Option.some_inj] at h
      rw [h, hl]
    have hmem : (k :: ks).getLast (by simp) + 1 ∈ apply_range_arith minfd K := by
      unfold apply_range_arith
      rw [hd]
      simp
    have := hall _ hmem
    rw [hlast] at this
    simp only [in_c_int, INT_MAX, INT_MIN] at this
    omega

/-- Claim C10 (amended), counterexample to the original claim: the sorted
keep-list `[INT_MIN, INT_MAX - 1]` has all elements strictly below
`c_int::MAX`, yet with `minfd = INT_MIN` the gap-loop subtraction
`high - low` produced by `apply_range` leaves the `c_int` range. -/
theorem apply_range_overflow_counterexample :
    [INT_MIN, INT_MAX - 1].Pairwise (· ≤ ·) ∧
    (∀ x ∈ [INT_MIN, INT_MAX - 1], x < INT_MAX) ∧
    ¬ (∀ v ∈ apply_range_arith INT_MIN [INT_MIN, INT_MAX - 1], in_c_int v) := by
  refine ⟨by decide, by decide, by decide⟩

/-- Claim C10 (amended): for every sorted keep-list whose elements lie in
`[0, c_int::MAX)` and threshold within `c_int`, no signed addition or
subtraction in `apply_range` leaves the `c_int` range and every range passed
to the bulk callback satisfies `low ≤ high`; and whenever the last surviving
keep-list element equals `c_int::MAX`, the final `+ 1` leaves the `c_int`
range. -/
theorem apply_range_overflow_safety :
    (∀ minfd K, K.Pairwise (· ≤ ·) → (∀ x ∈ K, 0 ≤ x ∧ x < INT_MAX) →
      minfd ≤ INT_MAX →
      (∀ v ∈ apply_range_arith minfd K, in_c_int v) ∧
      ∀ p ∈ apply_range_ranges minfd K, p.1 ≤ p.2) ∧
    (∀ minfd K last, (K.dropWhile (fun fd => decide (fd < minfd))).getLast? = some last →
      last = INT_MAX → ¬ ∀ v ∈ apply_range_arith minfd K, in_c_int v) :=
  ⟨fun m K hs hk hm => apply_range_arith_bounds m K hs hk hm,
   fun m K l h hl => apply_range_last_overflow m K l h hl⟩

/-- Witness for `apply_range_overflow_safety` at concrete inputs. -/
theorem apply_range_overflow_safety_witness :
    ((∀ v ∈ apply_range_arith 3 [5, 7], in_c_int v) ∧
      ∀ p ∈ apply_range_ranges 3 [5, 7], p.1 ≤ p.2) ∧
    ¬ ∀ v ∈ apply_range_arith 0 [INT_MAX], in_c_int v :=
  ⟨apply_range_overflow_safety.1 3 [5, 7] (by decide) (by decide) (by decide),
   apply_range_overflow_safety.2 0 [INT_MAX] INT_MAX (by decide) rfl⟩

/-! ## Claim C3: `simplify_keep_fds` -/

/-- The simplified keep-list is a suffix of the original (only leading
elements are dropped). -/
theorem simplify_go_suffix (K : List Int) : ∀ m, (simplify_go K m).1 <:+ K := by
  induction K with
  | nil => intro m; simp [simplify_go]
  | cons first rest ih =>
    intro m
    rw [simplify_go]
    by_cases h1 : m < first
    · rw [if_pos h1]
    · rw [if_neg h1]
      by_cases h2 : first = m
      · rw [if_pos h2]
        exact (ih (m + 1)).trans (List.suffix_cons first rest)
      · rw [if_neg h2]
        exact (ih m).trans (List.suffix_cons first rest)

/-- The threshold never decreases under simplification. -/
theorem simplify_go_minfd_le (K : List Int) : ∀ m, m ≤ (simplify_go K m).2 := by
  induction K with
  | nil => intro m; simp [simplify_go]
  | cons first rest ih =>
    intro m
    rw [simplify_go]
    by_cases h1 : m < first
    · rw [if_pos h1]
    · rw [if_neg h1]
      by_cases h2 : first = m
      · rw [if_pos h2]
        calc m ≤ m + 1 := by omega
          _ ≤ _ := ih (m + 1)
      · rw [if_neg h2]
        exact ih m

/-- The loop stops at the first element strictly greater than the working
threshold: the head of the result (if any) exceeds the final threshold. -/
theorem simplify_go_head_gt (K : List Int) :
    ∀ m x, (simplify_go K m).1.head? = some x → (simplify_go K m).2 < x := by
  induction K with
  | nil => intro m x h; simp [simplify_go] at h
  | cons first rest ih =>
    intro m x h
    rw [simplify_go] at h ⊢
    by_cases h1 : m < first
    · rw [if_pos h1] at h ⊢
      simp only [List.head?_cons, Option.some_inj] at h
      subst h
      exact h1
    · rw [if_neg h1] at h ⊢
      by_cases h2 : first = m
      · rw [if_pos h2] at h ⊢
        exact ih (m + 1) x h
      · rw [if_neg h2] at h ⊢
        exact ih m x h

/-- Filter-equivalence of `simplify_keep_fds`: a descriptor is at or above
the new threshold and outside the new list exactly when it is at or above the
original threshold and outside the original list. -/
theorem simplify_go_filter_equiv (K : List Int) :
    ∀ m fd, ((simplify_go K m).2 ≤ fd ∧ fd ∉ (simplify_go K m).1) ↔
      (m ≤ fd ∧ fd ∉ K) := by
  induction K with
  | nil => intro m fd; simp [simplify_go]
  | cons first rest ih =>
    intro m fd
    rw [simplify_go]
    by_cases h1 : m < first
    · rw [if_pos h1]
    · rw [if_neg h1]
      by_cases h2 : first = m
      · rw [if_pos h2]
        rw [ih (m + 1) fd]
        subst h2
        simp only [List.mem_cons, not_or]
        constructor
        · intro ⟨ha, hb⟩
          exact ⟨by omega, by omega, hb⟩
        · intro ⟨ha, hb, hc⟩
          exact ⟨by omega, hc⟩
      · rw [if_neg h2]
        rw [ih m fd]
        simp only [List.mem_cons, not_or]
        constructor
        · intro ⟨ha, hb⟩
          exact ⟨ha, by omega, hb⟩
        · intro ⟨ha, _, hc⟩
          exact ⟨ha, hc⟩

/-- Claim C3: for a sorted keep-list, `simplify_keep_fds` drops only leading
elements (the result is a suffix), never decreases the threshold, stops at
the first element greater than the working threshold, and the resulting
`(new_list, new_threshold)` pair is filter-equivalent to the input. -/
theorem simplify_keep_fds_spec (K : List Int) (m : Int)
    (hs : K.Pairwise (· ≤ ·)) :
    (simplify_keep_fds K true m).1 <:+ K ∧
    m ≤ (simplify_keep_fds K true m).2 ∧
    (∀ x, (simplify_keep_fds K true m).1.head? = some x →
      (simplify_keep_fds K true m).2 < x) ∧
    (∀ fd, ((simplify_keep_fds K true m).2 ≤ fd ∧
        fd ∉ (simplify_keep_fds K true m).1) ↔ (m ≤ fd ∧ fd ∉ K)) := by
  clear hs
  simp only [simplify_keep_fds, if_pos rfl]
  exact ⟨simplify_go_suffix K m, simplify_go_minfd_le K m,
    fun x => simplify_go_head_gt K m x, fun fd => simplify_go_filter_equiv K m fd⟩

/-- Witness for `simplify_keep_fds_spec` at the keep-list `[3, 4, 5, 8, 10]`
and threshold `3` (which simplifies to `([8, 10], 6)`). -/
theorem simplify_keep_fds_spec_witness :
    [(3 : Int), 4, 5, 8, 10].Pairwise (· ≤ ·) ∧
    ((simplify_keep_fds [3, 4, 5, 8, 10] true 3).1 <:+ [3, 4, 5, 8, 10] ∧
     (3 : Int) ≤ (simplify_keep_fds [3, 4, 5, 8, 10] true 3).2 ∧
     (∀ x, (simplify_keep_fds [3, 4, 5, 8, 10] true 3).1.head? = some x →
       (simplify_keep_fds [3, 4, 5, 8, 10] true 3).2 < x) ∧
     (∀ fd, ((simplify_keep_fds [3, 4, 5, 8, 10] true 3).2 ≤ fd ∧
         fd ∉ (simplify_keep_fds [3, 4, 5, 8, 10] true 3).1) ↔
       ((3 : Int) ≤ fd ∧ fd ∉ [(3 : Int), 4, 5, 8, 10]))) :=
  ⟨by decide, simplify_keep_fds_spec [3, 4, 5, 8, 10] 3 (by decide)⟩

/-! ## Claim C9: the directory-entry name decoder -/

/-- The decimal value is monotone in the accumulator's sense: folding digit
bytes onto a non-negative accumulator never decreases it. -/
theorem decValueFrom_ge (l : List Nat) (hd : ∀ c ∈ l, 48 ≤ c) :
    ∀ a : Int, 0 ≤ a → a ≤ decValueFrom a l := by
  induction l with
  | nil => intro a _; simp [decValueFrom]
  | cons c rest ih =>
    intro a ha
    have hc : (48 : Int) ≤ (c : Int) := by
      have := hd c (by simp)
      omega
    have ha' : 0 ≤ a * 10 + ((c : Int) - 48) := by nlinarith
    calc a ≤ a * 10 + ((c : Int) - 48) := by nlinarith
      _ ≤ decValueFrom (a * 10 + ((c : Int) - 48)) rest :=
        ih (fun x hx => hd x (by simp [hx])) _ ha'

/-- Unfolding: the decimal value of a cons. -/
theorem decValueFrom_cons (a : Int) (c : Nat) (l : List Nat) :
    decValueFrom a (c :: l) = decValueFrom (a * 10 + ((c : Int) - 48)) l := rfl

/-- Specification of the `parse_go` loop once a digit has been seen: starting
from an accumulator in `[0, INT_MAX]`, it returns `some n` exactly when the
remaining bytes are all ASCII digits and the accumulated decimal value is `n`
and fits in a `c_int`. -/
theorem parse_go_spec (l : List Nat) :
    ∀ num n : Int, 0 ≤ num → num ≤ INT_MAX →
      (parse_go num true l = some n ↔
        ((∀ c ∈ l, 48 ≤ c ∧ c ≤ 57) ∧ n = decValueFrom num l ∧
          decValueFrom num l ≤ INT_MAX)) := by
  induction l with
  | nil =>
    intro num n h0 hmax
    have hl : parse_go num true ([] : List Nat) = some num := rfl
    have hv : decValueFrom num ([] : List Nat) = num := rfl
    rw [hl, hv]
    constructor
    · intro h
      exact ⟨by simp, (Option.some_inj.mp h).symm, hmax⟩
    · intro ⟨_, h, _⟩
      rw [h]
  | cons ch rest ih =>
    intro num n h0 hmax
    rw [parse_go]
    by_cases hdig : 48 ≤ ch ∧ ch ≤ 57
    · rw [if_pos hdig]
      have hchi : (48 : Int) ≤ (ch : Int) ∧ (ch : Int) ≤ 57 := by
        constructor
        · exact_mod_cast hdig.1
        · exact_mod_cast hdig.2
      rw [decValueFrom_cons]
      by_cases hmul : in_c_int (num * 10)
      · have hcm : checked_mul num 10 = some (num * 10) := by
          rw [checked_mul, if_pos hmul]
        simp only [hcm]
        by_cases hadd : in_c_int (num * 10 + ((ch : Int) - 48))
        · have hca : checked_add (num * 10) ((ch : Int) - 48) =
              some (num * 10 + ((ch : Int) - 48)) := by
            rw [checked_add, if_pos hadd]
          simp only [hca]
          have h0' : 0 ≤ num * 10 + ((ch : Int) - 48) := by nlinarith
          have hmax' : num * 10 + ((ch : Int) - 48) ≤ INT_MAX := hadd.2
          rw [ih _ n h0' hmax']
          constructor
          · intro ⟨hall, hn, hle⟩
            refine ⟨fun c hc => ?_, hn, hle⟩
            rcases List.mem_cons.mp hc with h | h
            · subst h; exact hdig
            · exact hall c h
          · intro ⟨hall, hn, hle⟩
            exact ⟨fun c hc => hall c (by simp [hc]), hn, hle⟩
        · have hca : checked_add (num * 10) ((ch : Int) - 48) = none := by
            rw [checked_add, if_neg hadd]
          simp only [hca]
          constructor
          · intro h
            exact absurd h (by simp)
          · intro ⟨hall, hn, hle⟩
            exfalso
            have hgt : INT_MAX < num * 10 + ((ch : Int) - 48) := by
              simp only [in_c_int, not_and, not_le] at hadd
              rcases lt_or_le (num * 10 + ((ch : Int) - 48)) INT_MIN with h | h
              · simp only [INT_MIN] at h
                nlinarith
              · exact hadd h
            have hge : num * 10 + ((ch : Int) - 48) ≤
                decValueFrom (num * 10 + ((ch : Int) - 48)) rest := by
              refine decValueFrom_ge rest ?_ _ (by nlinarith)
              intro c hc
              exact (hall c (by simp [hc])).1
            omega
      · have hcm : checked_mul num 10 = none := by
          rw [checked_mul, if_neg hmul]
        simp only [hcm]
        constructor
        · intro h
          exact absurd h (by simp)
        · intro ⟨hall, hn, hle⟩
          exfalso
          have hgt : INT_MAX < num * 10 := by
            simp only [in_c_int, not_and, not_le] at hmul
            rcases lt_or_le (num * 10) INT_MIN with h | h
            · simp only [INT_MIN] at h
              nlinarith
            · exact hmul h
          have hge : num * 10 + ((ch : Int) - 48) ≤
              decValueFrom (num * 10 + ((ch : Int) - 48)) rest := by
            refine decValueFrom_ge rest ?_ _ (by nlinarith)
            intro c hc
            exact (hall c (by simp [hc])).1
          omega
    · rw [if_neg hdig]
      constructor
      · intro h
        exact absurd h (by simp)
      · intro ⟨hall, _, _⟩
        exact absurd (hall ch (by simp)) hdig

/-- On a non-empty byte string the `seen_any` flag plays no role in the first
step. -/
theorem parse_go_cons_seen (num : Int) (ch : Nat) (rest : List Nat) :
    parse_go num false (ch :: rest) = parse_go num true (ch :: rest) := rfl

/-- Claim C9: `parse_int_bytes` returns `some n` exactly when its input is
non-empty, consists solely of ASCII digits, and denotes the decimal value `n`,
which fits in a `c_int`; and `get_entry_info` pairs the value decoded from the
NUL-terminated name with the entry's record length. -/
theorem parse_int_bytes_decodes :
    (∀ (l : List Nat) (n : Int),
      parse_int_bytes l = some n ↔
        (l ≠ [] ∧ (∀ c ∈ l, 48 ≤ c ∧ c ≤ 57) ∧ n = decValue l ∧
          decValue l ≤ INT_MAX)) ∧
    (∀ e : Dirent, get_entry_info e =
      (parse_int_bytes (e.d_name.takeWhile (fun c => decide (c ≠ 0))), e.d_reclen)) := by
  constructor
  · intro l n
    cases l with
    | nil =>
      simp [parse_int_bytes, parse_go]
    | cons ch rest =>
      rw [parse_int_bytes, parse_go_cons_seen,
        parse_go_spec (ch :: rest) 0 n le_rfl (by norm_num [INT_MAX])]
      simp only [ne_eq, List.cons_ne_nil, not_false_iff, true_and, decValue]
  · intro e
    rfl

/-- Witness for `parse_int_bytes_decodes`: the byte string `"12"` decodes to
`12`, via both directions of the specification. -/
theorem parse_int_bytes_decodes_witness :
    parse_int_bytes [49, 50] = some 12 :=
  (parse_int_bytes_decodes.1 [49, 50] 12).mpr (by decide)

/-! ## Claim C8: monotonicity of the capability flags -/

/-- Claim C8: in every state reachable through the write sites of the three
capability flags, once a flag records unavailable it records unavailable
forever (the Linux `AtomicBool`s are never stored `true`, and the FreeBSD
tri-state, once decided in either direction, is never rewritten). -/
theorem cap_flags_monotone (s s' : CapState)
    (h : Relation.ReflTransGen CapStep s s') :
    (s.may_have_close_range = false → s'.may_have_close_range = false) ∧
    (s.may_have_close_range_cloexec = false →
      s'.may_have_close_range_cloexec = false) ∧
    (s.has_close_range = 0 → s'.has_close_range = 0) ∧
    (s.has_close_range = 1 → s'.has_close_range = 1) := by
  induction h with
  | refl => exact ⟨id, id, id, id⟩
  | tail _ hstep ih =>
    obtain ⟨ih1, ih2, ih3, ih4⟩ := ih
    cases hstep with
    | close_range ok =>
      refine ⟨fun h1 => ?_, ih2, ih3, ih4⟩
      have := ih1 h1
      cases ok <;> simp [try_close_range_flag, this]
    | cloexec_range ok =>
      refine ⟨ih1, fun h2 => ?_, ih3, ih4⟩
      have := ih2 h2
      cases ok <;> simp [set_cloexec_range_flag, this]
    | osreldate_check ok =>
      refine ⟨ih1, ih2, fun h3 => ?_, fun h4 => ?_⟩
      · have := ih3 h3
        simp [check_has_close_range_flag, this]
      · have := ih4 h4
        simp [check_has_close_range_flag, this]

/-- Witness for `cap_flags_monotone`: the empty trace from the all-decided
state. -/
theorem cap_flags_monotone_witness :
    ((false : Bool) = false → (false : Bool) = false) ∧
    ((false : Bool) = false → (false : Bool) = false) ∧
    ((0 : Nat) = 0 → (0 : Nat) = 0) ∧
    ((0 : Nat) = 1 → (0 : Nat) = 1) :=
  cap_flags_monotone ⟨false, false, 0⟩ ⟨false, false, 0⟩ Relation.ReflTransGen.refl

/-! ## Claim C5: ascending, duplicate-free iteration across a listing failure

The current iterator (`src/iterfds/fditer.rs`) records `self.curfd = fd + 1`
after yielding `fd` from the directory listing, so that after a mid-stream
listing failure the scan resumes at the last emitted value plus one.  The old
version in `src/lib.rs` records `self.curfd = fd` — despite its own comment
"so that if something goes wrong we can switch to the maxfd loop without
repeating file descriptors" — and therefore re-emits the last emitted
descriptor after a mid-stream failure. -/

/-- Claim C5, divergence of `src/lib.rs::FdIter::next` from the claim (and
from `src/iterfds/fditer.rs`): a "possible" iterator from threshold `0` whose
`/proc/self/fd` listing yields descriptor `3` and then fails emits `[3, 3]` —
the scan resumes at the last emitted value itself, re-emitting it — while the
current version emits `[3, 4]`, strictly ascending, resuming at the last
emitted value plus one. -/
theorem fdIter_lib_reemits_after_error :
    (iterRun (fdIterNext_lib ⟨fun _ => false, none, 4096⟩) 2
        ⟨some ⟨[3], true⟩, 0, true, -1⟩ = [3, 3]) ∧
    ¬ (iterRun (fdIterNext_lib ⟨fun _ => false, none, 4096⟩) 2
        ⟨some ⟨[3], true⟩, 0, true, -1⟩).Pairwise (· < ·) ∧
    (fdIterNext_lib ⟨fun _ => false, none, 4096⟩
        ⟨some ⟨[3], true⟩, 0, true, -1⟩).2.curfd = 3 ∧
    (iterRun (fdIterNext_iterfds ⟨fun _ => false, none, 4096⟩) 2
        ⟨some ⟨[3], true⟩, 0, true, -1⟩ = [3, 4]) ∧
    (iterRun (fdIterNext_iterfds ⟨fun _ => false, none, 4096⟩) 2
        ⟨some ⟨[3], true⟩, 0, true, -1⟩).Pairwise (· < ·) ∧
    (fdIterNext_iterfds ⟨fun _ => false, none, 4096⟩
        ⟨some ⟨[3], true⟩, 0, true, -1⟩).2.curfd = 4 := by
  refine ⟨by decide, by decide, by decide, by decide, by decide, by decide⟩

/-! ## Claim C6: fusedness of the iterator and the memoized upper bound

`src/iterfds/fditer.rs` guarantees `get_maxfd_direct()` never returns a
negative value (`nfds_to_maxfd(0) = Some(0)`), so `self.maxfd` is computed at
most once.  In the old `src/lib.rs` version, `nfds_to_maxfd(0) = Some(-1)`
makes `get_maxfd_direct()` return `-1`; since `-1` doubles as the "unknown"
marker, a later `next()` call recomputes the bound, and a descriptor opened
after exhaustion becomes visible to the already-exhausted iterator. -/

/-- Claim C6, divergence of `src/lib.rs` from the claim (and from
`src/iterfds/fditer.rs`): on the FreeBSD `nfds` path with zero descriptors
open, the old iterator returns exhaustion but leaves `maxfd = -1`
("unknown"); after descriptor `0` is opened (`nfds = 1`), the same iterator
yields `Some(0)` — not fused, and the memoized bound changed.  The current
version memoizes `maxfd = 0` on the first call and stays exhausted. -/
theorem fdIter_lib_not_fused :
    ((fdIterNext_lib ⟨fun _ => false, some 0, 1024⟩ ⟨none, 0, false, -1⟩).1 = none) ∧
    ((fdIterNext_lib ⟨fun _ => false, some 0, 1024⟩ ⟨none, 0, false, -1⟩).2.maxfd = -1) ∧
    ((fdIterNext_lib ⟨fun fd => decide (fd = 0), some 1, 1024⟩
        ((fdIterNext_lib ⟨fun _ => false, some 0, 1024⟩ ⟨none, 0, false, -1⟩).2)).1
      = some 0) ∧
    ((fdIterNext_iterfds ⟨fun _ => false, some 0, 1024⟩ ⟨none, 0, false, -1⟩).1 = none) ∧
    ((fdIterNext_iterfds ⟨fun _ => false, some 0, 1024⟩ ⟨none, 0, false, -1⟩).2.maxfd = 0) ∧
    ((fdIterNext_iterfds ⟨fun fd => decide (fd = 0), some 1, 1024⟩
        ((fdIterNext_iterfds ⟨fun _ => false, some 0, 1024⟩ ⟨none, 0, false, -1⟩).2)).1
      = none) := by
  refine ⟨by decide, by decide, by decide, by decide, by decide, by decide⟩

/-! ## Claim C4: the sorted cursor agrees with `contains` -/

/-- Correctness of one sorted-cursor query: if the original keep-list is
`pre ++ cur` where every element of `pre` is below the query `fd` and the
cursor `cur` is sorted, the decision equals membership in the original list,
and the new cursor is obtained from `cur` by dropping only elements below
`fd`. -/
theorem check_should_keep_sorted_spec (pre cur : List Int) (fd : Int)
    (hpre : ∀ x ∈ pre, x < fd) (hcur : cur.Pairwise (· ≤ ·)) :
    (check_should_keep cur fd true).1 = decide (fd ∈ pre ++ cur) ∧
    ∃ mid, cur = mid ++ (check_should_keep cur fd true).2 ∧ ∀ x ∈ mid, x < fd := by
  have hsplit : cur.takeWhile (fun x => decide (x < fd)) ++
      cur.dropWhile (fun x => decide (x < fd)) = cur :=
    List.takeWhile_append_dropWhile _ _
  rw [check_should_keep, if_pos rfl]
  cases hdw : cur.dropWhile (fun x => decide (x < fd)) with
  | nil =>
    have hall : ∀ x ∈ cur, x < fd := by
      intro x hx
      rw [← hsplit, hdw, List.append_nil] at hx
      simpa using List.mem_takeWhile_imp hx
    refine ⟨?_, [], by simp, by simp⟩
    have h1 : ¬ (cur.head? = some fd) := by
      cases cur with
      | nil => simp
      | cons c cs =>
        have := hall c (by simp)
        simp only [List.head?_cons, Option.some_inj]
        omega
    have h2 : fd ∉ pre ++ cur := by
      intro hmem
      rcases List.mem_append.mp hmem with h | h
      · exact absurd (hpre fd h) (by omega)
      · exact absurd (hall fd h) (by omega)
    simp only [decide_eq_decide]
    constructor
    · intro h; exact absurd h h1
    · intro h; exact absurd h h2
  | cons r rs =>
    have hr : ¬ (r < fd) := by simpa using dropWhile_head_false hdw
    have hcureq : cur = cur.takeWhile (fun x => decide (x < fd)) ++ (r :: rs) := by
      rw [← hdw, hsplit]
    refine ⟨?_, cur.takeWhile (fun x => decide (x < fd)), hcureq, ?_⟩
    · have hrs : (r :: rs).Pairwise (· ≤ ·) := by
        rw [hcureq] at hcur
        exact hcur.sublist (List.sublist_append_right _ _)
      simp only [decide_eq_decide]
      constructor
      · intro h
        subst h
        rw [hcureq]
        exact List.mem_append_right _ (by simp)
      · intro hmem
        rcases List.mem_append.mp hmem with h | h
        · exact absurd (hpre fd h) (by omega)
        · rw [hcureq] at h
          rcases List.mem_append.mp h with h | h
          · have := List.mem_takeWhile_imp h
            simp at this
          · rcases List.mem_cons.mp h with h | h
            · omega
            · have := (List.pairwise_cons.mp hrs).1 fd h
              omega
    · intro x hx
      have := List.mem_takeWhile_imp hx
      simpa using this

/-- The unsorted path is `contains` at every query, and never moves the
cursor. -/
theorem run_should_keep_unsorted (qs : List Int) :
    ∀ keep_fds, run_should_keep false keep_fds qs =
      qs.map (fun q => decide (q ∈ keep_fds)) := by
  induction qs with
  | nil => intro keep_fds; rfl
  | cons q qs ih =>
    intro keep_fds
    rw [run_should_keep, List.map_cons]
    exact congrArg _ (ih keep_fds)

/-- Running the sorted cursor over strictly ascending queries computes
membership in the original list, for every decomposition `pre ++ cur` with
`pre` below all queries. -/
theorem run_should_keep_sorted (qs : List Int) :
    ∀ pre cur, (∀ x ∈ pre, ∀ q ∈ qs, x < q) → cur.Pairwise (· ≤ ·) →
      qs.Pairwise (· < ·) →
      run_should_keep true cur qs = qs.map (fun q => decide (q ∈ pre ++ cur)) := by
  induction qs with
  | nil => intro pre cur _ _ _; rfl
  | cons q qs ih =>
    intro pre cur hpre hcur hqs
    obtain ⟨hdec, mid, hmeq, hmlt⟩ :=
      check_should_keep_sorted_spec pre cur q (fun x hx => hpre x hx q (by simp)) hcur
    rw [run_should_keep, List.map_cons, hdec]
    have hcur' : (check_should_keep cur q true).2.Pairwise (· ≤ ·) := by
      rw [hmeq] at hcur
      exact hcur.sublist (List.sublist_append_right _ _)
    have hpre' : ∀ x ∈ pre ++ mid, ∀ q' ∈ qs, x < q' := by
      intro x hx q' hq'
      rcases List.mem_append.mp hx with h | h
      · exact hpre x h q' (by simp [hq'])
      · have h1 := hmlt x h
        have h2 := (List.pairwise_cons.mp hqs).1 q' hq'
        omega
    have htail := ih (pre ++ mid) (check_should_keep cur q true).2 hpre' hcur'
      (List.pairwise_cons.mp hqs).2
    rw [htail]
    have : pre ++ mid ++ (check_should_keep cur q true).2 = pre ++ cur := by
      rw [List.append_assoc, ← hmeq]
    rw [this]

/-- Claim C4: for a sorted keep-list queried with strictly ascending values,
the sorted cursor path of `check_should_keep` returns exactly membership in
the original keep-list at every query, so it agrees with the unsorted
`contains` path on the whole query sequence. -/
theorem check_should_keep_sorted_agrees (keep_fds qs : List Int)
    (hk : keep_fds.Pairwise (· ≤ ·)) (hq : qs.Pairwise (· < ·)) :
    run_should_keep true keep_fds qs = qs.map (fun q => decide (q ∈ keep_fds)) ∧
    run_should_keep true keep_fds qs = run_should_keep false keep_fds qs := by
  have h1 := run_should_keep_sorted qs [] keep_fds (by simp) hk hq
  rw [List.nil_append] at h1
  exact ⟨h1, by rw [h1, run_should_keep_unsorted]⟩

/-- Witness for `check_should_keep_sorted_agrees` on the keep-list
`[0, 1, 5, 8, 10]` with the ascending queries `[0, 1, 2, 3, 5, 6]` (the
crate's own test vectors). -/
theorem check_should_keep_sorted_agrees_witness :
    run_should_keep true [0, 1, 5, 8, 10] [0, 1, 2, 3, 5, 6] =
      List.map (fun q => decide (q ∈ [(0 : Int), 1, 5, 8, 10])) [0, 1, 2, 3, 5, 6] ∧
    run_should_keep true [0, 1, 5, 8, 10] [0, 1, 2, 3, 5, 6] =
      run_should_keep false [0, 1, 5, 8, 10] [0, 1, 2, 3, 5, 6] :=
  check_should_keep_sorted_agrees [0, 1, 5, 8, 10] [0, 1, 2, 3, 5, 6]
    (by decide) (by decide)

/-! ## `inspect_keep_fds`: the sortedness verdict and the maximum -/

/-- Once the sortedness flag is cleared it stays cleared. -/
theorem inspect_go_sorted_false (K : List Int) :
    ∀ mx last, (inspect_go K mx last false).2 = false := by
  induction K with
  | nil => intro mx last; rfl
  | cons fd rest ih =>
    intro mx last
    rw [inspect_go]
    by_cases h1 : mx < fd
    · rw [if_pos h1]; exact ih fd fd
    · rw [if_neg h1]
      by_cases h2 : fd < last
      · rw [if_pos h2]; exact ih mx fd
      · rw [if_neg h2]; exact ih mx fd

/-- If the single pass reports the list sorted, it is a `≤`-chain (with the
previous element prepended).  The invariant `last ≤ mx` holds at every call
site. -/
theorem inspect_go_sorted (K : List Int) :
    ∀ mx last, last ≤ mx → (inspect_go K mx last true).2 = true →
      (last :: K).Chain' (· ≤ ·) := by
  induction K with
  | nil => intro mx last _ _; simp
  | cons fd rest ih =>
    intro mx last hlm h
    rw [inspect_go] at h
    by_cases h1 : mx < fd
    · rw [if_pos h1] at h
      exact List.Chain'.cons (by omega) (ih fd fd le_rfl h)
    · rw [if_neg h1] at h
      by_cases h2 : fd < last
      · rw [if_pos h2] at h
        rw [inspect_go_sorted_false] at h
        exact absurd h (by simp)
      · rw [if_neg h2] at h
        exact List.Chain'.cons (by omega) (ih mx fd (by omega) h)

/-- A keep-list reported sorted by `inspect_keep_fds` is sorted. -/
theorem inspect_sorted_pairwise (K : List Int)
    (h : (inspect_keep_fds K).2 = true) : K.Pairwise (· ≤ ·) := by
  have := inspect_go_sorted K INT_MIN INT_MIN le_rfl h
  exact List.chain'_iff_pairwise.mp this.tail

/-- The running maximum never decreases. -/
theorem inspect_go_max_ge (K : List Int) :
    ∀ mx last s, mx ≤ (inspect_go K mx last s).1 := by
  induction K with
  | nil => intro mx last s; exact le_rfl
  | cons fd rest ih =>
    intro mx last s
    rw [inspect_go]
    by_cases h1 : mx < fd
    · rw [if_pos h1]
      calc mx ≤ fd := by omega
        _ ≤ _ := ih fd fd s
    · rw [if_neg h1]
      by_cases h2 : fd < last
      · rw [if_pos h2]; exact ih mx fd false
      · rw [if_neg h2]; exact ih mx fd s

/-- Every element of the list is bounded by the result of the running-maximum
pass. -/
theorem inspect_go_mem_le (K : List Int) :
    ∀ mx last s, ∀ x ∈ K, x ≤ (inspect_go K mx last s).1 := by
  induction K with
  | nil => intro mx last s x hx; simp at hx
  | cons fd rest ih =>
    intro mx last s x hx
    rw [inspect_go]
    rcases List.mem_cons.mp hx with hx | hx
    · subst hx
      by_cases h1 : mx < x
      · rw [if_pos h1]; exact inspect_go_max_ge rest x x _
      · rw [if_neg h1]
        have hxm : x ≤ mx := by omega
        by_cases h2 : x < last
        · rw [if_pos h2]
          calc x ≤ mx := hxm
            _ ≤ _ := inspect_go_max_ge rest mx x false
        · rw [if_neg h2]
          calc x ≤ mx := hxm
            _ ≤ _ := inspect_go_max_ge rest mx x s
    · by_cases h1 : mx < fd
      · rw [if_pos h1]; exact ih fd fd s x hx
      · rw [if_neg h1]
        by_cases h2 : fd < last
        · rw [if_pos h2]; exact ih mx fd false x hx
        · rw [if_neg h2]; exact ih mx fd s x hx

/-- Every element of the keep-list is bounded by the computed maximum. -/
theorem inspect_max (K : List Int) : ∀ x ∈ K, x ≤ (inspect_keep_fds K).1 :=
  inspect_go_mem_le K INT_MIN INT_MIN true

/-! ## The close loop -/

/-- Closing a list of descriptors one by one removes exactly that list. -/
theorem foldl_close_fd (l : List Int) :
    ∀ s : Finset Int, l.foldl close_fd s = s.filter (fun x => x ∉ l) := by
  induction l with
  | nil =>
    intro s
    rw [List.foldl_nil]
    ext x
    simp
  | cons a l ih =>
    intro s
    rw [List.foldl_cons, ih]
    ext x
    simp only [Finset.mem_filter, close_fd, Finset.mem_erase, List.mem_cons]
    constructor
    · intro ⟨⟨hne, hs⟩, hnl⟩
      exact ⟨hs, by tauto⟩
    · intro ⟨hs, hn⟩
      exact ⟨⟨by tauto, hs⟩, by tauto⟩

/-- The close loop on an unsorted keep-list (the `contains` path): the final
open set keeps exactly the descriptors that were not enumerated or are in the
keep-list. -/
theorem close_fds_loop_unsorted (K : List Int) (maxk : Int)
    (hmax : ∀ x ∈ K, x ≤ maxk) :
    ∀ L : List Int, L.Pairwise (· < ·) → ∀ s : Finset Int,
      close_fds_loop maxk false L K s = s.filter (fun x => x ∉ L ∨ x ∈ K) := by
  intro L
  induction L with
  | nil =>
    intro _ s
    rw [close_fds_loop]
    ext x
    simp
  | cons fd rest ih =>
    intro hL s
    rw [close_fds_loop]
    by_cases hfd : maxk < fd
    · rw [if_pos hfd, foldl_close_fd]
      ext x
      simp only [Finset.mem_filter, List.mem_cons]
      constructor
      · intro ⟨hs, hn⟩
        exact ⟨hs, Or.inl hn⟩
      · intro ⟨hs, hn⟩
        refine ⟨hs, ?_⟩
        rcases hn with hn | hn
        · exact hn
        · -- x ∈ K but every enumerated value from here on exceeds maxk
          intro hmem
          have hxmax := hmax x hn
          rcases hmem with hm | hm
          · omega
          · have := (List.pairwise_cons.mp hL).1 x hm
            omega
    · rw [if_neg hfd]
      by_cases hmem : fd ∈ K
      · have hc : check_should_keep K fd false = (true, K) := by
          rw [check_should_keep]
          simp [hmem]
        simp only [hc]
        rw [ih (List.pairwise_cons.mp hL).2 s]
        ext x
        simp only [Finset.mem_filter, List.mem_cons]
        constructor
        · intro ⟨hs, hn⟩
          refine ⟨hs, ?_⟩
          rcases hn with hn | hn
          · by_cases hx : x = fd
            · subst hx; exact Or.inr hmem
            · exact Or.inl (by tauto)
          · exact Or.inr hn
        · intro ⟨hs, hn⟩
          exact ⟨hs, by tauto⟩
      · have hc : check_should_keep K fd false = (false, K) := by
          rw [check_should_keep]
          simp [hmem]
        simp only [hc]
        rw [ih (List.pairwise_cons.mp hL).2 (close_fd s fd)]
        ext x
        simp only [Finset.mem_filter, close_fd, Finset.mem_erase, List.mem_cons]
        constructor
        · intro ⟨⟨hne, hs⟩, hn⟩
          exact ⟨hs, by tauto⟩
        · intro ⟨hs, hn⟩
          have hne : x ≠ fd := by
            intro h
            subst h
            tauto
          exact ⟨⟨hne, hs⟩, by tauto⟩

/-- The close loop on a sorted keep-list (the cursor path): for any
decomposition `pre ++ cur` of the original keep-list with `pre` below every
enumerated value, the final open set keeps exactly the descriptors that were
not enumerated or are in the original keep-list. -/
theorem close_fds_loop_sorted (maxk : Int) :
    ∀ (L pre cur : List Int) (s : Finset Int),
      L.Pairwise (· < ·) → cur.Pairwise (· ≤ ·) →
      (∀ x ∈ pre, ∀ q ∈ L, x < q) →
      (∀ x ∈ pre ++ cur, x ≤ maxk) →
      close_fds_loop maxk true L cur s =
        s.filter (fun x => x ∉ L ∨ x ∈ pre ++ cur) := by
  intro L
  induction L with
  | nil =>
    intro pre cur s _ _ _ _
    rw [close_fds_loop]
    ext x
    simp
  | cons fd rest ih =>
    intro pre cur s hL hcur hpre hmax
    rw [close_fds_loop]
    by_cases hfd : maxk < fd
    · rw [if_pos hfd, foldl_close_fd]
      ext x
      simp only [Finset.mem_filter, List.mem_cons]
      constructor
      · intro ⟨hs, hn⟩
        exact ⟨hs, Or.inl hn⟩
      · intro ⟨hs, hn⟩
        refine ⟨hs, ?_⟩
        rcases hn with hn | hn
        · exact hn
        · intro hmem
          have hxmax := hmax x hn
          rcases hmem with hm | hm
          · omega
          · have := (List.pairwise_cons.mp hL).1 x hm
            omega
    · rw [if_neg hfd]
      obtain ⟨hdec, mid, hmeq, hmlt⟩ :=
        check_should_keep_sorted_spec pre cur fd
          (fun x hx => hpre x hx fd (by simp)) hcur
      have hcur' : (check_should_keep cur fd true).2.Pairwise (· ≤ ·) := by
        rw [hmeq] at hcur
        exact hcur.sublist (List.sublist_append_right _ _)
      have hpre' : ∀ x ∈ pre ++ mid, ∀ q ∈ rest, x < q := by
        intro x hx q hq
        rcases List.mem_append.mp hx with h | h
        · exact hpre x h q (by simp [hq])
        · have h1 := hmlt x h
          have h2 := (List.pairwise_cons.mp hL).1 q hq
          omega
      have hPeq : pre ++ mid ++ (check_should_keep cur fd true).2 = pre ++ cur := by
        rw [List.append_assoc, ← hmeq]
      have hmax' : ∀ x ∈ pre ++ mid ++ (check_should_keep cur fd true).2, x ≤ maxk := by
        rw [hPeq]
        exact hmax
      have htail := fun s' => ih (pre ++ mid) (check_should_keep cur fd true).2 s'
        (List.pairwise_cons.mp hL).2 hcur' hpre' hmax'
      by_cases hmem : fd ∈ pre ++ cur
      · have h2 : (check_should_keep cur fd true).1 = true := by
          rw [hdec]
          exact decide_eq_true hmem
        have h1 : check_should_keep cur fd true =
            (true, (check_should_keep cur fd true).2) := by
          calc check_should_keep cur fd true
              = ((check_should_keep cur fd true).1,
                 (check_should_keep cur fd true).2) := Prod.mk.eta.symm
            _ = (true, (check_should_keep cur fd true).2) := by rw [h2]
        rw [h1]
        simp only
        rw [htail s, hPeq]
        ext x
        simp only [Finset.mem_filter, List.mem_cons]
        constructor
        · intro ⟨hs, hn⟩
          refine ⟨hs, ?_⟩
          rcases hn with hn | hn
          · by_cases hx : x = fd
            · subst hx; exact Or.inr hmem
            · exact Or.inl (by tauto)
          · exact Or.inr hn
        · intro ⟨hs, hn⟩
          exact ⟨hs, by tauto⟩
      · have h2 : (check_should_keep cur fd true).1 = false := by
          rw [hdec]
          exact decide_eq_false hmem
        have h1 : check_should_keep cur fd true =
            (false, (check_should_keep cur fd true).2) := by
          calc check_should_keep cur fd true
              = ((check_should_keep cur fd true).1,
                 (check_should_keep cur fd true).2) := Prod.mk.eta.symm
            _ = (false, (check_should_keep cur fd true).2) := by rw [h2]
        rw [h1]
        simp only
        rw [htail (close_fd s fd), hPeq]
        ext x
        simp only [Finset.mem_filter, close_fd, Finset.mem_erase, List.mem_cons]
        constructor
        · intro ⟨⟨hne, hs⟩, hn⟩
          exact ⟨hs, by tauto⟩
        · intro ⟨hs, hn⟩
          have hne : x ≠ fd := by
            intro h
            subst h
            tauto
          exact ⟨⟨hne, hs⟩, by tauto⟩

/-! ## Claims C1 and C7: the final open-descriptor set -/

/-- Characterization of `close_open_fds`: provided the enumeration `L` is
strictly ascending, starts no lower than the simplified threshold, and covers
every open descriptor at or above it (the "possible" iterator guarantees),
the final open set keeps exactly the descriptors that are below the clamped
threshold or in the keep-list. -/
theorem close_open_fds_char (t : Int) (K L : List Int) (opens : Finset Int)
    (hL : L.Pairwise (· < ·))
    (hLlo : ∀ x ∈ L, (simplify_keep_fds K (inspect_keep_fds K).2 (max t 0)).2 ≤ x)
    (hcov : ∀ fd ∈ opens,
      (simplify_keep_fds K (inspect_keep_fds K).2 (max t 0)).2 ≤ fd → fd ∈ L) :
    ∀ fd, fd ∈ close_open_fds t K L opens ↔
      (fd ∈ opens ∧ (fd < max t 0 ∨ fd ∈ K)) := by
  intro fd
  have hunf : close_open_fds t K L opens =
      close_fds_loop (inspect_keep_fds K).1 (inspect_keep_fds K).2 L
        (simplify_keep_fds K (inspect_keep_fds K).2 (max t 0)).1 opens := rfl
  by_cases hsrt : (inspect_keep_fds K).2 = true
  · -- the sorted (cursor) path
    have hKs : K.Pairwise (· ≤ ·) := inspect_sorted_pairwise K hsrt
    have hsf : simplify_keep_fds K (inspect_keep_fds K).2 (max t 0) =
        simplify_go K (max t 0) := by
      rw [hsrt, simplify_keep_fds, if_pos rfl]
    obtain ⟨pre0, hpre0⟩ := simplify_go_suffix K (max t 0)
    have hK'pair : (simplify_go K (max t 0)).1.Pairwise (· ≤ ·) := by
      conv at hKs => rw [← hpre0]
      exact hKs.sublist (List.sublist_append_right _ _)
    have hmaxb : ∀ x ∈ ([] : List Int) ++ (simplify_go K (max t 0)).1,
        x ≤ (inspect_keep_fds K).1 := by
      intro x hx
      rw [List.nil_append] at hx
      refine inspect_max K x ?_
      rw [← hpre0]
      exact List.mem_append_right _ hx
    have hloop := close_fds_loop_sorted (inspect_keep_fds K).1 L []
      (simplify_go K (max t 0)).1 opens hL hK'pair (by simp) hmaxb
    rw [hunf, hsf, hsrt, hloop, Finset.mem_filter, List.nil_append]
    rw [hsf] at hLlo hcov
    have hequiv := simplify_go_filter_equiv K (max t 0) fd
    constructor
    · intro ⟨hs, hn⟩
      refine ⟨hs, ?_⟩
      by_contra hcon
      push_neg at hcon
      obtain ⟨hge, hnk⟩ := hcon
      have hm' : (simplify_go K (max t 0)).2 ≤ fd ∧
          fd ∉ (simplify_go K (max t 0)).1 := hequiv.mpr ⟨by omega, hnk⟩
      rcases hn with hn | hn
      · exact hn (hcov fd hs hm'.1)
      · exact hm'.2 hn
    · intro ⟨hs, hn⟩
      refine ⟨hs, ?_⟩
      have hnot : ¬ ((simplify_go K (max t 0)).2 ≤ fd ∧
          fd ∉ (simplify_go K (max t 0)).1) := by
        intro h
        have := hequiv.mp h
        rcases hn with hn | hn
        · omega
        · exact this.2 hn
      by_cases hk' : fd ∈ (simplify_go K (max t 0)).1
      · exact Or.inr hk'
      · refine Or.inl ?_
        intro hfd
        exact hnot ⟨hLlo fd hfd, hk'⟩
  · -- the unsorted (`contains`) path
    have hsrtf : (inspect_keep_fds K).2 = false := by
      cases h : (inspect_keep_fds K).2
      · rfl
      · exact absurd h hsrt
    have hsf : simplify_keep_fds K (inspect_keep_fds K).2 (max t 0) =
        (K, max t 0) := by
      rw [hsrtf, simplify_keep_fds, if_neg (by simp)]
    have hloop := close_fds_loop_unsorted K (inspect_keep_fds K).1
      (inspect_max K) L hL opens
    rw [hunf, hsf, hsrtf, hloop, Finset.mem_filter]
    rw [hsf] at hLlo hcov
    constructor
    · intro ⟨hs, hn⟩
      refine ⟨hs, ?_⟩
      rcases hn with hn | hn
      · by_cases hge : max t 0 ≤ fd
        · exact absurd (hcov fd hs hge) hn
        · exact Or.inl (by omega)
      · exact Or.inr hn
    · intro ⟨hs, hn⟩
      refine ⟨hs, ?_⟩
      rcases hn with hn | hn
      · refine Or.inl ?_
        intro hfd
        have := hLlo fd hfd
        omega
      · exact Or.inr hn

/-- Claim C1: after `close_open_fds(t, K)` — driven by any enumeration with
the iterator's guarantees — the open descriptors at or above the clamped
threshold are exactly the keep-list members that were open before, and no
descriptor below the threshold or in the keep-list is affected. -/
theorem close_open_fds_spec (t : Int) (K L : List Int) (opens : Finset Int)
    (hL : L.Pairwise (· < ·))
    (hLlo : ∀ x ∈ L, (simplify_keep_fds K (inspect_keep_fds K).2 (max t 0)).2 ≤ x)
    (hcov : ∀ fd ∈ opens,
      (simplify_keep_fds K (inspect_keep_fds K).2 (max t 0)).2 ≤ fd → fd ∈ L) :
    (∀ fd, max t 0 ≤ fd →
      (fd ∈ close_open_fds t K L opens ↔ (fd ∈ K ∧ fd ∈ opens))) ∧
    (∀ fd, fd < max t 0 ∨ fd ∈ K →
      (fd ∈ close_open_fds t K L opens ↔ fd ∈ opens)) := by
  have hchar := close_open_fds_char t K L opens hL hLlo hcov
  constructor
  · intro fd hge
    rw [hchar fd]
    constructor
    · intro ⟨hs, hn⟩
      rcases hn with hn | hn
      · omega
      · exact ⟨hn, hs⟩
    · intro ⟨hk, hs⟩
      exact ⟨hs, Or.inr hk⟩
  · intro fd hn
    rw [hchar fd]
    constructor
    · intro ⟨hs, _⟩
      exact hs
    · intro hs
      exact ⟨hs, hn⟩

/-- Witness for `close_open_fds_spec`: the spec's own scenario — open set
`{3,4,5,6,7,8}`, `close_all(3, [5,7])` — with the enumeration
`[3,4,5,6,7,8]`. -/
theorem close_open_fds_spec_witness :
    ([(3 : Int), 4, 5, 6, 7, 8].Pairwise (· < ·)) ∧
    ((∀ fd : Int, max 3 0 ≤ fd →
      (fd ∈ close_open_fds 3 [5, 7] [3, 4, 5, 6, 7, 8]
          ({3, 4, 5, 6, 7, 8} : Finset Int) ↔
        (fd ∈ [(5 : Int), 7] ∧ fd ∈ ({3, 4, 5, 6, 7, 8} : Finset Int)))) ∧
     (∀ fd : Int, fd < max 3 0 ∨ fd ∈ [(5 : Int), 7] →
      (fd ∈ close_open_fds 3 [5, 7] [3, 4, 5, 6, 7, 8]
          ({3, 4, 5, 6, 7, 8} : Finset Int) ↔
        fd ∈ ({3, 4, 5, 6, 7, 8} : Finset Int)))) :=
  ⟨by decide,
   close_open_fds_spec 3 [5, 7] [3, 4, 5, 6, 7, 8] ({3, 4, 5, 6, 7, 8} : Finset Int)
     (by decide) (by decide) (by decide)⟩

/-- Claim C7: closing is idempotent — a second `close_open_fds(t, K)`, driven
by any enumeration with the iterator's guarantees for the new open set,
leaves the open-descriptor set unchanged. -/
theorem close_open_fds_idempotent (t : Int) (K L1 L2 : List Int)
    (opens : Finset Int)
    (hL1 : L1.Pairwise (· < ·))
    (hL1lo : ∀ x ∈ L1, (simplify_keep_fds K (inspect_keep_fds K).2 (max t 0)).2 ≤ x)
    (hcov1 : ∀ fd ∈ opens,
      (simplify_keep_fds K (inspect_keep_fds K).2 (max t 0)).2 ≤ fd → fd ∈ L1)
    (hL2 : L2.Pairwise (· < ·))
    (hL2lo : ∀ x ∈ L2, (simplify_keep_fds K (inspect_keep_fds K).2 (max t 0)).2 ≤ x)
    (hcov2 : ∀ fd ∈ close_open_fds t K L1 opens,
      (simplify_keep_fds K (inspect_keep_fds K).2 (max t 0)).2 ≤ fd → fd ∈ L2) :
    close_open_fds t K L2 (close_open_fds t K L1 opens) =
      close_open_fds t K L1 opens := by
  have h1 := close_open_fds_char t K L1 opens hL1 hL1lo hcov1
  have h2 := close_open_fds_char t K L2 (close_open_fds t K L1 opens) hL2 hL2lo hcov2
  ext fd
  rw [h2 fd, h1 fd]
  constructor
  · intro ⟨⟨hs, hn⟩, _⟩
    exact ⟨hs, hn⟩
  · intro ⟨hs, hn⟩
    exact ⟨⟨hs, hn⟩, hn⟩

/-- Witness for `close_open_fds_idempotent` on the spec's scenario. -/
theorem close_open_fds_idempotent_witness :
    close_open_fds 3 [5, 7] [3, 4, 5, 6, 7, 8]
        (close_open_fds 3 [5, 7] [3, 4, 5, 6, 7, 8] ({3, 4, 5, 6, 7, 8} : Finset Int)) =
      close_open_fds 3 [5, 7] [3, 4, 5, 6, 7, 8] ({3, 4, 5, 6, 7, 8} : Finset Int) :=
  close_open_fds_idempotent 3 [5, 7] [3, 4, 5, 6, 7, 8] [3, 4, 5, 6, 7, 8]
    ({3, 4, 5, 6, 7, 8} : Finset Int)
    (by decide) (by decide) (by decide) (by decide) (by decide) (by decide)

end CloseFds
